import Mathlib

/-!
Verification development for the ExpressionSerializer repository.

The repository serializes typed boolean predicate lambdas into OData filter
strings and deserializes such strings back into executable predicates.  The
definitions below are shallow embeddings of the repository sources:

* the TypeScript tree-walking serializer, in its two in-repo dialects
  (src/expression-serializer-ts/src/serializer.ts together with
  src/expression-serializer-ts/build-tools/serializer.ts, and the newer
  ts-lambda-to-odata serializer shipped next to
  src/src/typescript/ts-lambda-to-odata/test/runtime.test.ts);
* the C# root-parameter resolution
  (ExpressionSerializer.GetParameterExpression and
  ExpressionHelper.GetParameterExpression);
* the C# Serialize wrapper with its HandleSerializeGotchas rethrow;
* the runtime serializeExpression placeholder of
  src/expression-serializer-ts/src/serialize.ts;
* a deserializer for the core filter grammar.  The grammar parser/binder is an
  external collaborator of the repository (a third-party OData stack), so it is
  modelled from the spec, as an executable lexer/parser/compiler.
-/

/-! ### The TypeScript AST consumed by the serializers -/

/-- Binary/arithmetic operator token kinds of the TypeScript AST that the
serializers handle (the operator token is a child node of a binary
expression and is converted by the token cases of the visitor). -/
inductive BinOp where
  | gtTok | geTok | ltTok | leTok
  | eqeqTok | eqeqeqTok | neTok | neeTok
  | andandTok | ororTok
  | plusTok | minusTok | starTok | slashTok | percentTok
deriving DecidableEq, Repr

/-- Collection function names recognised by isCollectionFunction in the
serializer sources: only a member call named some or every enters the
quantifier branch, so the embedding restricts this constructor to them. -/
inductive CollFn where
  | someFn | everyFn
deriving DecidableEq, Repr

/-- The string/array method names listed in the serializers
(methodCallNames / the switch of src/serializer.ts). -/
inductive StrMethod where
  | startsWithM | endsWithM | includesM | indexOfM | substringM
  | toLowerCaseM | toLocaleLowerCaseM | toUpperCaseM | toLocaleUpperCaseM
  | trimM
deriving DecidableEq, Repr

/-- Shallow embedding of the TypeScript expression nodes the serializers walk.
A binary expression carries its operator kind; the visitor emits its left
child, the operator token child and the right child in order, exactly as
forEachChild does for an unhandled BinaryExpression node.  A member call is
split by shape the way the source dispatches on it: a quantifier call
(some/every with an arrow-function argument), a string/array method call on a
property receiver (argument nodes are carried as their joined source text,
which is how the source consumes them), and a direct function call (carried as
the callee source text plus argument text, again as consumed). -/
inductive TsNode where
  | ident (text : String)
  | strLit (text : String)
  | numLit (text : String)
  | trueKw | falseKw | nullKw | undefinedKw
  | binaryExpr (l : TsNode) (op : BinOp) (r : TsNode)
  | prefixNotExpr (operand : TsNode)
  | parenExpr (inner : TsNode)
  | propAccess (obj : TsNode) (name : String)
  | callQuant (obj : TsNode) (fn : CollFn) (param : String) (body : TsNode)
  | callMethod (obj : TsNode) (m : StrMethod) (argsText : String)
  | callDirect (fnText : String) (argsText : String)
deriving DecidableEq, Repr

/-- An arrow function, the top-level input of convertExpressionToODataString:
one parameter name plus the body expression. -/
structure TsArrow where
  param : String
  body : TsNode
deriving DecidableEq, Repr

/-- The external type-query capability (the TypeScript TypeChecker): the
serializers ask for the textual static type of a node
(typeChecker.typeToString (getTypeAtLocation node)) and, in the
ts-lambda-to-odata dialect, whether a node has an array-like type (the
disjunction of the getNumberIndexType / isArrayType / isTupleType /
Array-symbol checks). -/
structure TypeQuery where
  tyOf : TsNode → String
  isArray : TsNode → Bool

/-- The two serializer dialects present in the repository sources:
esTs is expression-serializer-ts (src/serializer.ts and
build-tools/serializer.ts, which agree on every construct embedded here) and
tsLambda is the newer ts-lambda-to-odata serializer. -/
inductive SerVariant where
  | esTs | tsLambda
deriving DecidableEq, Repr

/-- Operator token conversion: the switch cases for the comparison, logical
and arithmetic token kinds (src/serializer.ts inlines the spaced strings, the
other dialects wrap processBinaryOperator / processArithmeticOperator results
in single spaces; the resulting strings agree). -/
def opToken : BinOp → String
  | .gtTok => "gt"
  | .geTok => "ge"
  | .ltTok => "lt"
  | .leTok => "le"
  | .eqeqTok => "eq"
  | .eqeqeqTok => "eq"
  | .neTok => "ne"
  | .neeTok => "ne"
  | .andandTok => "and"
  | .ororTok => "or"
  | .plusTok => "add"
  | .minusTok => "sub"
  | .starTok => "mul"
  | .slashTok => "div"
  | .percentTok => "mod"

/-- The source property name of a collection function (the text of the callee
member name in the TypeScript source). -/
def collFnSourceName : CollFn → String
  | .someFn => "some"
  | .everyFn => "every"

/-- getCollectionFunction / convertCollectionFunction: some maps to any and
every maps to all. -/
def getCollectionFunction : CollFn → String
  | .someFn => "any"
  | .everyFn => "all"

/-- The source member name of a string/array method. -/
def methodSourceName : StrMethod → String
  | .startsWithM => "startsWith"
  | .endsWithM => "endsWith"
  | .includesM => "includes"
  | .indexOfM => "indexOf"
  | .substringM => "substring"
  | .toLowerCaseM => "toLowerCase"
  | .toLocaleLowerCaseM => "toLocaleLowerCase"
  | .toUpperCaseM => "toUpperCase"
  | .toLocaleUpperCaseM => "toLocaleUpperCase"
  | .trimM => "trim"

/-- getNestedPropertyName, identical in all three serializer files: renders a
property-access chain as a slash-joined path; an identifier at the bottom is
included exactly when includeIdentifier is set (note the source returns the
identifier text without comparing it to the lambda parameter), and an empty
parent renders as the bare property name (the JavaScript truthiness test on
parentName). -/
def getNestedPropertyName (node : TsNode) (lambdaParameter : Option String)
    (includeIdentifier : Bool) : String :=
  match node with
  | .propAccess obj name =>
    let parentName := getNestedPropertyName obj lambdaParameter includeIdentifier
    if parentName.isEmpty then name else parentName ++ "/" ++ name
  | .ident t => if includeIdentifier then t else ""
  | _ => ""

/-- processMethodCall (and the corresponding switch of src/serializer.ts):
string/array methods map to their OData functions.  The two dialects differ
only on includes: expression-serializer-ts emits contains(property, args)
while ts-lambda-to-odata emits args in (property). -/
def processMethodCall (v : SerVariant) (m : StrMethod) (propertyName : String)
    (args : String) : String :=
  match m with
  | .startsWithM => "startswith(" ++ propertyName ++ ", " ++ args ++ ")"
  | .endsWithM => "endswith(" ++ propertyName ++ ", " ++ args ++ ")"
  | .includesM =>
    match v with
    | .esTs => "contains(" ++ propertyName ++ ", " ++ args ++ ")"
    | .tsLambda => args ++ " in (" ++ propertyName ++ ")"
  | .indexOfM => "indexof(" ++ propertyName ++ ", " ++ args ++ ")"
  | .substringM => "substring(" ++ propertyName ++ ", " ++ args ++ ")"
  | .toLowerCaseM => "tolower(" ++ propertyName ++ ")"
  | .toLocaleLowerCaseM => "tolower(" ++ propertyName ++ ")"
  | .toUpperCaseM => "toupper(" ++ propertyName ++ ")"
  | .toLocaleUpperCaseM => "toupper(" ++ propertyName ++ ")"
  | .trimM => "trim(" ++ propertyName ++ ")"

/-- The Identifier case of the visitor: undefined renders as null, the lambda
parameter itself renders as nothing, and any other identifier whose parent is
not a property access is an external reference rendered as an interpolation
placeholder, single-quoted when its static type prints as string.  (In the
ts-lambda-to-odata dialect this is processIdentifier; the additional
nodeIsPartOfExpression guard is represented structurally, because the
embedding only ever visits nodes of the lambda body.) -/
def emitIdent (tq : TypeQuery) (lambdaParameter : Option String)
    (parentIsPropAccess : Bool) (t : String) : String :=
  if t = "undefined" then "null"
  else if lambdaParameter = some t then ""
  else if parentIsPropAccess then ""
  else if tq.tyOf (.ident t) = "string" then "'$\x7b" ++ t ++ "\x7d'"
  else "$\x7b" ++ t ++ "\x7d"

/-- The PropertyAccessExpression case.  A member named length is special: the
expression-serializer-ts dialect always emits length(objectText) (its test
suite expects length(historicPrices) even for an array receiver), while the
ts-lambda-to-odata dialect asks the type query whether the receiver is a
string (typeToString equal to string, else the negation of the array check)
and emits length(objectText) for strings and objectText/$count otherwise.
Any other member emits the bare property name when the receiver is the
current lambda parameter (prefixed by it when includeIdentifier is set inside
a quantifier sub-predicate), and the slash-joined nested path otherwise. -/
def emitPropAccess (v : SerVariant) (tq : TypeQuery)
    (lambdaParameter : Option String) (includeIdentifier : Bool)
    (obj : TsNode) (name : String) : String :=
  if name = "length" then
    let objectText := getNestedPropertyName obj lambdaParameter includeIdentifier
    match v with
    | .esTs => "length(" ++ objectText ++ ")"
    | .tsLambda =>
      let isString :=
        if tq.tyOf obj = "string" then true else !(tq.isArray obj)
      if isString then "length(" ++ objectText ++ ")"
      else objectText ++ "/$count"
  else
    match obj with
    | .ident t =>
      if lambdaParameter = some t then
        if includeIdentifier then t ++ "/" ++ name else name
      else getNestedPropertyName (.propAccess obj name) lambdaParameter includeIdentifier
    | _ => getNestedPropertyName (.propAccess obj name) lambdaParameter includeIdentifier

/-- The recursive visitor (visitNode) shared shape of the serializer sources.
The walker state of the source, the accumulating filter string and the
current lambda parameter with its save/restore discipline, appears here as the
returned string and the lambdaParameter argument: the source saves the buffer,
resets it, visits a sub-tree, wraps the result and restores, which is exactly
string concatenation of recursive results.  parentIsPropAccess records the
only fact about the parent node the source consults.

The collection branch runs forEachChild(lambdaExpression.body, node visited
with an undefined parent and includeIdentifier set), so it visits the children
of the body node, never the body node itself.  For an unhandled node kind
(binary expression) this equals visiting the node; for every handled kind it
visits the children instead: in particular a body that is itself a call
expression has its callee member access and its arrow-function argument
visited as plain children (the arrow function is unhandled, so its parameter
declaration identifier and its body are visited in turn), without ever
entering the collection branch for the inner call.  A property-access callee
or a bare identifier visited this way goes through the corresponding case
body (emitPropAccess, emitIdent).  Argument nodes of callMethod/callDirect
bodies are carried as raw text by the embedding and contribute nothing here;
no claim exercises those two shapes. -/
def visitNode (v : SerVariant) (tq : TypeQuery) (lambdaParameter : Option String)
    (includeIdentifier : Bool) (parentIsPropAccess : Bool) (n : TsNode) : String :=
  match n with
  | .binaryExpr l op r =>
    -- an unhandled BinaryExpression recurses into left child, operator token
    -- child and right child; the token cases emit the spaced operator
    visitNode v tq lambdaParameter includeIdentifier false l
      ++ " " ++ opToken op ++ " "
      ++ visitNode v tq lambdaParameter includeIdentifier false r
  | .prefixNotExpr e =>
    "not " ++ visitNode v tq lambdaParameter includeIdentifier false e
  | .parenExpr e =>
    "(" ++ visitNode v tq lambdaParameter includeIdentifier false e ++ ")"
  | .propAccess obj name =>
    emitPropAccess v tq lambdaParameter includeIdentifier obj name
  | .ident t => emitIdent tq lambdaParameter parentIsPropAccess t
  | .strLit s => "'" ++ s ++ "'"
  | .numLit t => t
  | .trueKw => "true"
  | .falseKw => "false"
  | .nullKw => "null"
  | .undefinedKw => "null"
  | .callQuant obj fn param body =>
    -- the collection branch: switch to the quantifier parameter for the body,
    -- then wrap as collection/any-or-all(param: body); the nested match is
    -- the forEachChild traversal of the body node described above
    getNestedPropertyName obj lambdaParameter includeIdentifier
      ++ "/" ++ getCollectionFunction fn ++ "(" ++ param ++ ": "
      ++ (match body with
          | .binaryExpr l op r =>
            visitNode v tq (some param) true false l
              ++ " " ++ opToken op ++ " "
              ++ visitNode v tq (some param) true false r
          | .prefixNotExpr e => visitNode v tq (some param) true false e
          | .parenExpr e => visitNode v tq (some param) true false e
          | .propAccess obj2 name2 =>
            visitNode v tq (some param) true false obj2
              ++ emitIdent tq (some param) false name2
          | .callQuant obj2 fn2 param2 body2 =>
            emitPropAccess v tq (some param) true obj2 (collFnSourceName fn2)
              ++ emitIdent tq (some param) false param2
              ++ visitNode v tq (some param) true false body2
          | .callMethod obj2 m2 _ =>
            emitPropAccess v tq (some param) true obj2 (methodSourceName m2)
          | _ => "")
      ++ ")"
  | .callMethod obj m args =>
    processMethodCall v m
      (getNestedPropertyName obj lambdaParameter includeIdentifier) args
  | .callDirect fnText args =>
    "$\x7b" ++ fnText ++ "(" ++ args ++ ")\x7d"

/-- convertExpressionToODataString: reads the lambda parameter name off the
arrow function and walks its body.  (forEachChild also visits the parameter
declaration, whose identifier equals the lambda parameter and therefore
contributes nothing.) -/
def convertExpressionToODataString (v : SerVariant) (tq : TypeQuery)
    (e : TsArrow) : String :=
  visitNode v tq (some e.param) false false e.body

/-! ### C#: root-parameter resolution (deserialization) -/

/-- Shallow embedding of the System.Linq.Expressions node kinds that the C#
root-parameter search distinguishes: MemberExpression, BinaryExpression,
ParameterExpression, UnaryExpression, and everything else (for instance a
ConstantExpression), which falls into the default arm of the switch. -/
inductive CsExpr where
  | member (obj : CsExpr) (name : String)
  | binary (l r : CsExpr)
  | paramRef (name : String)
  | unary (operand : CsExpr)
  | constant
deriving DecidableEq, Repr

/-- ExpressionSerializer.GetParameterExpression (the variant with the isRoot
flag): descends through MemberExpression.Expression, BinaryExpression.Left
then BinaryExpression.Right, and UnaryExpression.Operand; a ParameterExpression
is returned; any other node throws InvalidOperationException when it is the
root call and yields null otherwise. -/
def GetParameterExpression (e : CsExpr) (isRoot : Bool) :
    Except String (Option String) :=
  match e with
  | .member obj _ => GetParameterExpression obj false
  | .binary l r =>
    match GetParameterExpression l false with
    | .ok (some p) => .ok (some p)
    | .ok none => GetParameterExpression r false
    | .error msg => .error msg
  | .paramRef nm => .ok (some nm)
  | .unary operand => GetParameterExpression operand false
  | .constant =>
    if isRoot then .error "Unable to find parameter expression." else .ok none

/-- ExpressionHelper.GetParameterExpression: the same left-first search without
the isRoot flag; it never throws on this node model (the MemberExpression null
check of the source cannot fire because every member node here carries its
object), it just returns null when nothing is found. -/
def ExpressionHelperGetParameterExpression : CsExpr → Option String
  | .member obj _ => ExpressionHelperGetParameterExpression obj
  | .binary l r =>
    match ExpressionHelperGetParameterExpression l with
    | some p => some p
    | none => ExpressionHelperGetParameterExpression r
  | .paramRef nm => some nm
  | .unary operand => ExpressionHelperGetParameterExpression operand
  | .constant => none

/-- ExpressionHelper.GetRootParameterExpression: wraps the search and throws
InvalidOperationException exactly when the search returns null. -/
def GetRootParameterExpression (e : CsExpr) : Except String String :=
  match ExpressionHelperGetParameterExpression e with
  | none => .error "Unable to find parameter expression."
  | some p => .ok p

/-- Follows the words of the spec for comparison with the code: the first
Parameter node found by recursively descending through MemberAccess.object,
both sides of BinaryOp preferring the left branch, and UnaryOp.operand. -/
def rootParameterSpec : CsExpr → Option String
  | .member obj _ => rootParameterSpec obj
  | .binary l r =>
    match rootParameterSpec l with
    | some p => some p
    | none => rootParameterSpec r
  | .paramRef nm => some nm
  | .unary operand => rootParameterSpec operand
  | .constant => none

/-- Whether a Parameter node occurs anywhere in the tree. -/
def containsParam : CsExpr → Bool
  | .member obj _ => containsParam obj
  | .binary l r => containsParam l || containsParam r
  | .paramRef _ => true
  | .unary operand => containsParam operand
  | .constant => false

/-! ### C#: Serialize with its IndexOf(char) gotcha handling -/

/-- A C# exception as far as the Serialize wrapper inspects it: whether it is
a NotSupportedException, and its message. -/
structure CsException where
  isNotSupported : Bool
  message : String
deriving DecidableEq, Repr

/-- Substring test used to embed Exception.Message.Contains. -/
def strContainsSub (hay needle : String) : Bool :=
  hay.data.tails.any (fun t => needle.data.isPrefixOf t)

/-- The subset of LINQ expression trees relevant to the IndexOf(char) claim:
serializable fragments, comparisons, and IndexOf calls whose single argument
is either char-typed or string-typed. -/
inductive LinqExpr where
  | propL (name : String)
  | constL (text : String)
  | cmpL (l : LinqExpr) (op : String) (r : LinqExpr)
  | indexOfCall (recv : LinqExpr) (argIsChar : Bool) (argText : String)
deriving DecidableEq, Repr

/-- Whether the tree contains an IndexOf call with a char-typed argument. -/
def containsCharIndexOf : LinqExpr → Bool
  | .propL _ => false
  | .constL _ => false
  | .cmpL l _ r => containsCharIndexOf l || containsCharIndexOf r
  | .indexOfCall recv isChar _ => isChar || containsCharIndexOf recv

/-- Modelled from the spec: the external Microsoft OData client URI
translator that ExpressionSerializer.Serialize delegates to (the
DataServiceQuery request-URI construction).  It renders the supported
constructs and raises a NotSupportedException whose message names the
IndexOf method when it meets the char-argument IndexOf overload, the
behaviour the repository test asserts and HandleSerializeGotchas rewraps. -/
def odataClientTranslate : LinqExpr → Except CsException String
  | .propL nm => .ok nm
  | .constL t => .ok t
  | .cmpL l op r => do
    let sl ← odataClientTranslate l
    let sr ← odataClientTranslate r
    .ok (sl ++ " " ++ op ++ " " ++ sr)
  | .indexOfCall recv isChar arg =>
    if isChar then
      .error { isNotSupported := true,
               message := "The method IndexOf(Char) is not supported." }
    else do
      let s ← odataClientTranslate recv
      .ok ("indexof(" ++ s ++ "," ++ arg ++ ")")

/-- ExpressionSerializer.HandleSerializeGotchas: a NotSupportedException whose
message mentions IndexOf is rethrown with the explanatory message. -/
def HandleSerializeGotchas (ex : CsException) : CsException :=
  if ex.isNotSupported && strContainsSub ex.message "IndexOf" then
    { isNotSupported := true,
      message := "The string IndexOf(char) method is unsupported. Please use the IndexOf(string) method instead." }
  else ex

/-- ExpressionSerializer.Serialize: delegates to the OData client translation
and, in its catch block, rethrows through HandleSerializeGotchas. -/
def Serialize (e : LinqExpr) : Except CsException String :=
  match odataClientTranslate e with
  | .ok s => .ok s
  | .error ex => .error (HandleSerializeGotchas ex)

/-! ### The runtime serializeExpression placeholder -/

/-- src/expression-serializer-ts/src/serialize.ts: the runtime
serializeExpression unconditionally throws; it exists only to be replaced by
the compile-time transformer. -/
def serializeExpression (TEntity : Type) (expression : TEntity → Bool) :
    Except String String :=
  .error "This function is intended to be replaced during compile-time, and should not exist at runtime. If you encounter this error during runtime, it means you have not correctly set up the TypeScript transformer included with expression-serializer-ts. See that project README for details of how to implement it."

/-! ### Interpolation rendering of serialized placeholders -/

/-- Modelled from the spec: the compile-time transformer turns the serialized
string into a template literal (createTemplateLiteral splits the string on its
interpolation placeholders), and evaluating that template substitutes each
placeholder with the current runtime value of the captured expression.  This
renderer performs that substitution in one scan: outside a placeholder (state
none) it looks for a dollar-brace opener, inside one (state some acc) it
accumulates the source text of the captured expression until the closing
brace, then substitutes its current value. -/
def interpolateScan (env : String → String) (st : Option (List Char))
    (cs : List Char) : List Char :=
  match cs with
  | [] => []
  | c1 :: rest =>
    match st with
    | some acc =>
      if c1 = Char.ofNat 125 then
        (env (String.mk acc)).data ++ interpolateScan env none rest
      else interpolateScan env (some (acc ++ [c1])) rest
    | none =>
      match h : rest with
      | c2 :: rest2 =>
        if c1 = '$' ∧ c2 = Char.ofNat 123 then
          interpolateScan env (some []) rest2
        else c1 :: interpolateScan env none rest
      | [] => [c1]
termination_by cs.length
decreasing_by all_goals (simp_all +arith [List.length]; try omega)

/-- Renders a serialized filter string under a runtime environment giving the
current value of every captured expression. -/
def interpolateRender (s : String) (env : String → String) : String :=
  String.mk (interpolateScan env none s.data)

/-! ### C1: the supported grammar subset and its round trip

The round-trip claim quantifies over predicate trees built from the supported
grammar subset.  The subset embedded here covers comparisons of property
paths and of the string functions tolower/toupper/trim/length/substring/
indexof against numeric, string, boolean and null literals, the boolean
string functions startswith/endswith/contains, bare and negated boolean
properties, parenthesised grouping, conjunction and disjunction with the
usual precedence, and single-level any/all quantifiers over a comparison.
Nested quantifiers are excluded because the embedded serializer mis-emits
them (the traversal slip proved for the quantifier-scoping claim), and
arithmetic operands are not modelled. -/

/-- Builds the property-access chain node for a path read left to right off a
base node. -/
def chainNode (base : TsNode) : List String → TsNode
  | [] => base
  | nm :: rest => chainNode (.propAccess base nm) rest

/-- The single-quote character of the grammar. -/
def quoteChar : Char := Char.ofNat 39

/-- The keyword tokens of the grammar, which a property name may not
spell. -/
def reservedWords : List (List Char) :=
  ["and".data, "or".data, "gt".data, "ge".data, "lt".data, "le".data,
   "eq".data, "ne".data, "not".data, "true".data, "false".data, "null".data]

/-- A property-name word: nonempty, alphabetic, not a grammar keyword. -/
def nameOk (cs : List Char) : Bool :=
  !cs.isEmpty && cs.all Char.isAlpha && !reservedWords.contains cs

/-- Well-formed property name for the round-trip subset: a valid name word
that is also not the member named length, which the serializer treats
specially. -/
def wfName (s : String) : Bool :=
  nameOk s.data && s != "length"

/-- Well-formed property path: nonempty, every segment a well-formed name. -/
def wfPath (path : List String) : Bool :=
  !path.isEmpty && path.all wfName

/-- Slash-joined rendering of a property path, the shape the spec describes
for nested member access (person/age). -/
def renderPath : List String → String
  | [] => ""
  | [n] => n
  | n :: ns => n ++ "/" ++ renderPath ns

/-- One step of path joining as getNestedPropertyName performs it: an empty
accumulated parent renders as the bare name. -/
def joinSegment (acc nm : String) : String :=
  if acc.isEmpty then nm else acc ++ "/" ++ nm

/-! ## Theorems -/

/-! ### General helper lemmas -/

theorem chainNode_append (base : TsNode) (xs ys : List String) :
    chainNode base (xs ++ ys) = chainNode (chainNode base xs) ys := by
  induction xs generalizing base with
  | nil => rfl
  | cons x xs ih => simpa [chainNode] using ih (.propAccess base x)

theorem chainNode_cons_isPropAccess (rest : List String) :
    ∀ (base : TsNode) (nm : String),
      ∃ o pn, chainNode (.propAccess base nm) rest = .propAccess o pn := by
  induction rest with
  | nil => exact fun base nm => ⟨base, nm, rfl⟩
  | cons x xs ih => exact fun base nm => ih (.propAccess base nm) x

theorem getNestedPropertyName_chainNode (lam : Option String) (ii : Bool)
    (ns : List String) : ∀ base : TsNode,
    getNestedPropertyName (chainNode base ns) lam ii
      = List.foldl joinSegment (getNestedPropertyName base lam ii) ns := by
  induction ns with
  | nil => intro base; rfl
  | cons n rest ih =>
    intro base
    have := ih (.propAccess base n)
    simpa [chainNode, List.foldl, getNestedPropertyName, joinSegment] using this

theorem renderPath_cons_cons (a n : String) (rest : List String) :
    renderPath (a :: n :: rest) = a ++ "/" ++ renderPath (n :: rest) := rfl

theorem append_nonempty_slash (a b : String) : ¬ (a ++ "/" ++ b).isEmpty := by
  intro h
  have h2 := (String.isEmpty_iff _).mp h
  have h3 : (a ++ "/" ++ b).data = a.data ++ '/' :: b.data := by
    simp [String.data_append]
  rw [h2] at h3
  exact absurd h3.symm (by simp)

theorem foldl_joinSegment_nonempty (ns : List String) :
    ∀ acc : String, ¬ acc.isEmpty →
      List.foldl joinSegment acc ns = renderPath (acc :: ns) := by
  induction ns with
  | nil => intro acc _; rfl
  | cons n rest ih =>
    intro acc hacc
    have step : joinSegment acc n = acc ++ "/" ++ n := by
      simp [joinSegment, hacc]
    calc List.foldl joinSegment acc (n :: rest)
        = List.foldl joinSegment (acc ++ "/" ++ n) rest := by
          simp [List.foldl, step]
      _ = renderPath ((acc ++ "/" ++ n) :: rest) :=
          ih _ (append_nonempty_slash acc n)
      _ = acc ++ "/" ++ renderPath (n :: rest) := by
          cases rest with
          | nil => rfl
          | cons r rs => simp [renderPath_cons_cons, String.append_assoc]

theorem foldl_joinSegment_empty (ns : List String)
    (hns : ∀ s ∈ ns, s.data ≠ []) :
    List.foldl joinSegment "" ns = renderPath ns := by
  cases ns with
  | nil => rfl
  | cons n rest =>
    have hn : ¬ n.isEmpty := by
      intro h
      exact hns n (by simp) (by simpa using congrArg String.data ((String.isEmpty_iff _).mp h))
    have step : joinSegment "" n = n := rfl
    calc List.foldl joinSegment "" (n :: rest)
        = List.foldl joinSegment n rest := by simp [List.foldl, step]
      _ = renderPath (n :: rest) := foldl_joinSegment_nonempty rest n hn

/-- How the walker renders a nested property chain rooted at the current
lambda parameter with includeIdentifier unset: the parameter is dropped and
the member levels are joined with slashes. -/
theorem visit_chain_noIdent (v : SerVariant) (tq : TypeQuery) (param : String)
    (pp : Bool) (ns : List String) (last : String)
    (hlast : last ≠ "length") (hns : ∀ s ∈ ns ++ [last], s.data ≠ []) :
    visitNode v tq (some param) false pp (chainNode (.ident param) (ns ++ [last]))
      = renderPath (ns ++ [last]) := by
  have hch : chainNode (.ident param) (ns ++ [last])
      = .propAccess (chainNode (.ident param) ns) last := by
    rw [chainNode_append]; rfl
  cases ns with
  | nil =>
    rw [hch]
    simp [visitNode, chainNode, emitPropAccess, hlast, renderPath]
  | cons n rest =>
    obtain ⟨o, pn, ho⟩ := chainNode_cons_isPropAccess rest (.ident param) n
    have hobj : chainNode (.ident param) (n :: rest) = .propAccess o pn := by
      simpa [chainNode] using ho
    have hget : getNestedPropertyName
        (chainNode (.ident param) ((n :: rest) ++ [last])) (some param) false
        = renderPath ((n :: rest) ++ [last]) := by
      rw [getNestedPropertyName_chainNode]
      exact foldl_joinSegment_empty _ hns
    rw [hch] at hget ⊢
    rw [hobj] at hget ⊢
    simpa [visitNode, emitPropAccess, hlast] using hget

/-- How the walker renders a nested property chain rooted at the current
lambda parameter inside a quantifier sub-predicate (includeIdentifier set):
the quantifier's bound name becomes the first path segment. -/
theorem visit_chain_ident (v : SerVariant) (tq : TypeQuery) (param : String)
    (pp : Bool) (ns : List String) (last : String)
    (hlast : last ≠ "length") (hparam : param.data ≠ [])
    (hns : ∀ s ∈ ns ++ [last], s.data ≠ []) :
    visitNode v tq (some param) true pp (chainNode (.ident param) (ns ++ [last]))
      = renderPath (param :: (ns ++ [last])) := by
  have hch : chainNode (.ident param) (ns ++ [last])
      = .propAccess (chainNode (.ident param) ns) last := by
    rw [chainNode_append]; rfl
  cases ns with
  | nil =>
    rw [hch]
    simp [visitNode, chainNode, emitPropAccess, hlast, renderPath]
  | cons n rest =>
    obtain ⟨o, pn, ho⟩ := chainNode_cons_isPropAccess rest (.ident param) n
    have hobj : chainNode (.ident param) (n :: rest) = .propAccess o pn := by
      simpa [chainNode] using ho
    have hpne : ¬ param.isEmpty := by
      intro h
      exact hparam (by simpa using congrArg String.data ((String.isEmpty_iff _).mp h))
    have hget : getNestedPropertyName
        (chainNode (.ident param) ((n :: rest) ++ [last])) (some param) true
        = renderPath (param :: ((n :: rest) ++ [last])) := by
      rw [getNestedPropertyName_chainNode]
      have hgi : getNestedPropertyName (.ident param) (some param) true = param := rfl
      rw [hgi]
      exact foldl_joinSegment_nonempty _ param hpne
    rw [hch] at hget ⊢
    rw [hobj] at hget ⊢
    simpa [visitNode, emitPropAccess, hlast] using hget

/-! ### C6: loose and strict comparison spellings collapse -/

/-- C6: for every comparison node, serializing the loose and the strict
spelling produces the same token: a binary expression with the loose equality
operator serializes identically to one with the strict operator (and likewise
for inequality), in either serializer dialect and any walker state, because
both token kinds are converted to eq (respectively ne). -/
theorem comparison_spellings_collapse (v : SerVariant) (tq : TypeQuery)
    (lam : Option String) (ii pp : Bool) (l r : TsNode) :
    visitNode v tq lam ii pp (.binaryExpr l .eqeqTok r)
      = visitNode v tq lam ii pp (.binaryExpr l .eqeqeqTok r)
    ∧ visitNode v tq lam ii pp (.binaryExpr l .neTok r)
      = visitNode v tq lam ii pp (.binaryExpr l .neeTok r)
    ∧ opToken .eqeqTok = "eq" ∧ opToken .eqeqeqTok = "eq"
    ∧ opToken .neTok = "ne" ∧ opToken .neeTok = "ne" := by
  refine ⟨?_, ?_, rfl, rfl, rfl, rfl⟩ <;> simp [visitNode, opToken]

/-! ### C7: null and undefined collapse to the null token -/

/-- C7: serializing a null-equality or undefined-equality comparison always
emits the token null whichever source spelling was used: the null keyword,
the undefined keyword and the identifier spelled undefined all serialize to
null, so the two comparisons serialize identically. -/
theorem null_undefined_collapse (v : SerVariant) (tq : TypeQuery)
    (lam : Option String) (ii pp : Bool) (l : TsNode) :
    visitNode v tq lam ii pp .nullKw = "null"
    ∧ visitNode v tq lam ii pp .undefinedKw = "null"
    ∧ visitNode v tq lam ii pp (.ident "undefined") = "null"
    ∧ visitNode v tq lam ii pp (.binaryExpr l .eqeqTok .nullKw)
        = visitNode v tq lam ii pp (.binaryExpr l .eqeqTok .undefinedKw)
    ∧ visitNode v tq lam ii pp (.binaryExpr l .eqeqeqTok .nullKw)
        = visitNode v tq lam ii pp (.binaryExpr l .eqeqeqTok (.ident "undefined")) := by
  refine ⟨rfl, rfl, rfl, ?_, ?_⟩ <;> simp [visitNode, emitIdent]

/-! ### C10: the runtime serializeExpression placeholder always throws -/

/-- C10: for every input predicate, calling the runtime serializeExpression
function directly yields the runtime error and never a string. -/
theorem serializeExpression_always_throws (T : Type) (p : T → Bool) :
    serializeExpression T p
      = .error "This function is intended to be replaced during compile-time, and should not exist at runtime. If you encounter this error during runtime, it means you have not correctly set up the TypeScript transformer included with expression-serializer-ts. See that project README for details of how to implement it."
    ∧ ∀ s : String, serializeExpression T p ≠ .ok s := by
  refine ⟨rfl, fun s h => ?_⟩
  simp [serializeExpression] at h

/-! ### C2: quantifier scoping and the nested-quantifier traversal -/

/-- C2 (evaluation at the failing input): serializing the nested-quantifier
predicate x with body a.some(i with body i.b.some(j with body j.c > 1)) in
the expression-serializer-ts walker (the type query typing every node as
number) flattens the inner quantifier instead of scoping it: the inner call
is never serialized as any(), its callee renders as the path i/b/some, a
spurious interpolation of the inner bound name j is emitted, and the result
differs from the properly scoped nested output. -/
theorem nested_quantifier_mis_serialized :
    convertExpressionToODataString .esTs ⟨fun _ => "number", fun _ => false⟩
      ⟨"x", .callQuant (.propAccess (.ident "x") "a") .someFn "i"
        (.callQuant (.propAccess (.ident "i") "b") .someFn "j"
          (.binaryExpr (.propAccess (.ident "j") "c") .gtTok (.numLit "1")))⟩
      = "a/any(i: i/b/some$\x7bj\x7dj/c gt 1)"
    ∧ convertExpressionToODataString .esTs ⟨fun _ => "number", fun _ => false⟩
      ⟨"x", .callQuant (.propAccess (.ident "x") "a") .someFn "i"
        (.callQuant (.propAccess (.ident "i") "b") .someFn "j"
          (.binaryExpr (.propAccess (.ident "j") "c") .gtTok (.numLit "1")))⟩
      ≠ "a/any(i: i/b/any(j: j/c gt 1))" := by
  exact ⟨rfl, by decide⟩

/-! ### C3: root-parameter resolution -/

theorem GetParameterExpression_false_eq (e : CsExpr) :
    GetParameterExpression e false = .ok (rootParameterSpec e) := by
  induction e with
  | member obj nm ih => simpa [GetParameterExpression, rootParameterSpec] using ih
  | binary l r ihl ihr =>
    simp only [GetParameterExpression, rootParameterSpec, ihl, ihr]
    cases rootParameterSpec l <;> simp [ihr]
  | paramRef nm => rfl
  | unary o ih => simpa [GetParameterExpression, rootParameterSpec] using ih
  | constant => rfl

theorem ExpressionHelper_eq_spec (e : CsExpr) :
    ExpressionHelperGetParameterExpression e = rootParameterSpec e := by
  induction e with
  | member obj nm ih =>
    simpa [ExpressionHelperGetParameterExpression, rootParameterSpec] using ih
  | binary l r ihl ihr =>
    simp only [ExpressionHelperGetParameterExpression, rootParameterSpec, ihl, ihr]
  | paramRef nm => rfl
  | unary o ih =>
    simpa [ExpressionHelperGetParameterExpression, rootParameterSpec] using ih
  | constant => rfl

theorem containsParam_eq_isSome (e : CsExpr) :
    containsParam e = (rootParameterSpec e).isSome := by
  induction e with
  | member obj nm ih => simpa [containsParam, rootParameterSpec] using ih
  | binary l r ihl ihr =>
    simp only [containsParam, rootParameterSpec, ihl, ihr]
    cases rootParameterSpec l <;> simp
  | paramRef nm => rfl
  | unary o ih => simpa [containsParam, rootParameterSpec] using ih
  | constant => rfl

/-- C3 (counterexample): a BinaryOp over two non-descendable nodes contains no
Parameter node anywhere, yet the root call of
ExpressionSerializer.GetParameterExpression returns null without raising the
root-parameter failure, so the failure does not occur exactly when no
Parameter exists. -/
theorem rootParameter_no_failure_without_param :
    containsParam (.binary .constant .constant) = false
    ∧ GetParameterExpression (.binary .constant .constant) true = .ok none :=
  ⟨rfl, rfl⟩

/-- C3 (amended): root-parameter resolution returns the first Parameter found
by left-first recursive descent through MemberAccess.object, both BinaryOp
sides and UnaryOp.operand (the search equals the spec's left-first-search
function, and a Parameter exists somewhere exactly when the search succeeds);
the ExpressionSerializer.GetParameterExpression variant raises the failure
only when the root node itself is non-descendable, returning null without
failing when a descendable tree contains no Parameter, while the
ExpressionHelper.GetRootParameterExpression variant fails exactly when the
search finds no Parameter anywhere. -/
theorem rootParameter_resolution (e : CsExpr) :
    GetParameterExpression e false = .ok (rootParameterSpec e)
    ∧ GetParameterExpression e true =
        (match e with
         | .constant => .error "Unable to find parameter expression."
         | _ => .ok (rootParameterSpec e))
    ∧ ExpressionHelperGetParameterExpression e = rootParameterSpec e
    ∧ containsParam e = (rootParameterSpec e).isSome
    ∧ GetRootParameterExpression e =
        (match rootParameterSpec e with
         | some p => .ok p
         | none => .error "Unable to find parameter expression.") := by
  refine ⟨GetParameterExpression_false_eq e, ?_, ExpressionHelper_eq_spec e,
    containsParam_eq_isSome e, ?_⟩
  · cases e with
    | member obj nm =>
      simpa [GetParameterExpression, rootParameterSpec] using
        GetParameterExpression_false_eq obj
    | binary l r =>
      have hl := GetParameterExpression_false_eq l
      have hr := GetParameterExpression_false_eq r
      simp only [GetParameterExpression, rootParameterSpec, hl, hr]
      cases rootParameterSpec l <;> simp [hr]
    | paramRef nm => rfl
    | unary o =>
      simpa [GetParameterExpression, rootParameterSpec] using
        GetParameterExpression_false_eq o
    | constant => rfl
  · rw [GetRootParameterExpression, ExpressionHelper_eq_spec e]
    cases rootParameterSpec e <;> rfl

/-! ### C4: length versus collection count -/

/-- C4 (counterexample): the expression-serializer-ts serializer renders the
array-length access of x with body historicPrices.length > 5 as
length(historicPrices) gt 5, exactly as its own test expects, and not as the
count form, even though the supplied type query reports the receiver as a
collection: its length handling never consults the type query. -/
theorem esTs_collection_length_not_count :
    convertExpressionToODataString .esTs
      ⟨fun _ => "number[]", fun n => n = .propAccess (.ident "x") "historicPrices"⟩
      ⟨"x", .binaryExpr
        (.propAccess (.propAccess (.ident "x") "historicPrices") "length")
        .gtTok (.numLit "5")⟩
      = "length(historicPrices) gt 5"
    ∧ convertExpressionToODataString .esTs
      ⟨fun _ => "number[]", fun n => n = .propAccess (.ident "x") "historicPrices"⟩
      ⟨"x", .binaryExpr
        (.propAccess (.propAccess (.ident "x") "historicPrices") "length")
        .gtTok (.numLit "5")⟩
      ≠ "historicPrices/$count gt 5" := by
  exact ⟨rfl, by decide⟩

/-- C4 (amended): only the ts-lambda-to-odata serializer distinguishes the
receiver's static type for a length/count access: a receiver whose type
prints as string yields length(path), a receiver reported as a collection
yields path/$count, and the quantifier example serializes to
Items/any(i: i/HistoricPrices/$count gt 1); the expression-serializer-ts
serializer emits length(path) for every receiver. -/
theorem length_count_type_dispatch (tq : TypeQuery) (lam : Option String)
    (ii pp : Bool) (obj : TsNode) :
    (tq.tyOf obj = "string" →
      visitNode .tsLambda tq lam ii pp (.propAccess obj "length")
        = "length(" ++ getNestedPropertyName obj lam ii ++ ")")
    ∧ (tq.tyOf obj ≠ "string" → tq.isArray obj = true →
      visitNode .tsLambda tq lam ii pp (.propAccess obj "length")
        = getNestedPropertyName obj lam ii ++ "/$count")
    ∧ visitNode .esTs tq lam ii pp (.propAccess obj "length")
        = "length(" ++ getNestedPropertyName obj lam ii ++ ")"
    ∧ convertExpressionToODataString .tsLambda
        ⟨fun n => if n = .propAccess (.ident "i") "HistoricPrices"
                  then "number[]" else "number",
         fun n => n = .propAccess (.ident "i") "HistoricPrices"⟩
        ⟨"x", .callQuant (.propAccess (.ident "x") "Items") .someFn "i"
          (.binaryExpr
            (.propAccess (.propAccess (.ident "i") "HistoricPrices") "length")
            .gtTok (.numLit "1"))⟩
        = "Items/any(i: i/HistoricPrices/$count gt 1)" := by
  refine ⟨fun hs => ?_, fun hns ha => ?_, ?_, rfl⟩
  · simp [visitNode, emitPropAccess, hs]
  · simp [visitNode, emitPropAccess, hns, ha]
  · simp [visitNode, emitPropAccess]

/-- Witness for the length/count dispatch at concrete receivers: a
string-typed receiver renders as a length call and an array-typed receiver
renders as a count path. -/
theorem length_count_type_dispatch_witness :
    visitNode .tsLambda ⟨fun _ => "string", fun _ => false⟩ (some "x") false false
        (.propAccess (.propAccess (.ident "x") "name") "length")
      = "length(name)"
    ∧ visitNode .tsLambda ⟨fun _ => "number[]", fun _ => true⟩ (some "x") false false
        (.propAccess (.propAccess (.ident "x") "historicPrices") "length")
      = "historicPrices/$count" := by
  constructor
  · have h := (length_count_type_dispatch ⟨fun _ => "string", fun _ => false⟩
      (some "x") false false (.propAccess (.ident "x") "name")).1 rfl
    simpa [getNestedPropertyName] using h
  · have h := (length_count_type_dispatch ⟨fun _ => "number[]", fun _ => true⟩
      (some "x") false false (.propAccess (.ident "x") "historicPrices")).2.1
      (by decide) rfl
    simpa [getNestedPropertyName] using h

/-! ### C5: the char-argument indexOf overload is unsupported -/

theorem odataClientTranslate_ok_of_no_charIndexOf (e : LinqExpr)
    (h : containsCharIndexOf e = false) :
    ∃ s, odataClientTranslate e = .ok s := by
  induction e with
  | propL nm => exact ⟨nm, rfl⟩
  | constL t => exact ⟨t, rfl⟩
  | cmpL l op r ihl ihr =>
    simp [containsCharIndexOf] at h
    obtain ⟨sl, hl⟩ := ihl h.1
    obtain ⟨sr, hr⟩ := ihr h.2
    exact ⟨sl ++ " " ++ op ++ " " ++ sr,
      by simp only [odataClientTranslate, hl, hr]; rfl⟩
  | indexOfCall recv isChar arg ih =>
    simp [containsCharIndexOf] at h
    obtain ⟨s, hs⟩ := ih h.2
    exact ⟨"indexof(" ++ s ++ "," ++ arg ++ ")",
      by simp only [odataClientTranslate, h.1, hs, Bool.false_eq_true, if_false]; rfl⟩

theorem odataClientTranslate_charIndexOf_error (e : LinqExpr)
    (h : containsCharIndexOf e = true) :
    odataClientTranslate e
      = .error ⟨true, "The method IndexOf(Char) is not supported."⟩ := by
  induction e with
  | propL nm => simp [containsCharIndexOf] at h
  | constL t => simp [containsCharIndexOf] at h
  | cmpL l op r ihl ihr =>
    simp [containsCharIndexOf] at h
    rcases h with h | h
    · simp only [odataClientTranslate, ihl h]; rfl
    · cases hcl : containsCharIndexOf l with
      | true => simp only [odataClientTranslate, ihl hcl]; rfl
      | false =>
        obtain ⟨sl, hsl⟩ := odataClientTranslate_ok_of_no_charIndexOf l hcl
        simp only [odataClientTranslate, hsl, ihr h]; rfl
  | indexOfCall recv isChar arg ih =>
    simp [containsCharIndexOf] at h
    rcases h with h | h
    · simp [odataClientTranslate, h]
    · cases hic : isChar with
      | true => simp [odataClientTranslate]
      | false => simp only [odataClientTranslate, ih h, Bool.false_eq_true, if_false]; rfl

/-- C5: serializing a predicate tree containing an indexOf call with a
char-typed argument fails with the distinguishable unsupported-construct
error (the NotSupportedException rewrapped by HandleSerializeGotchas with the
explanatory IndexOf(char) message); it never returns a string. -/
theorem serialize_char_indexOf_unsupported (e : LinqExpr)
    (h : containsCharIndexOf e = true) :
    Serialize e = .error ⟨true, "The string IndexOf(char) method is unsupported. Please use the IndexOf(string) method instead."⟩
    ∧ ∀ s, Serialize e ≠ .ok s := by
  have ht := odataClientTranslate_charIndexOf_error e h
  have hgot : HandleSerializeGotchas
      ⟨true, "The method IndexOf(Char) is not supported."⟩
      = ⟨true, "The string IndexOf(char) method is unsupported. Please use the IndexOf(string) method instead."⟩ := by
    rfl
  constructor
  · simp [Serialize, ht, hgot]
  · intro s hok
    simp [Serialize, ht] at hok

/-- Witness: serializing Name.IndexOf over a char argument compared with 2
fails with the distinguishable error. -/
theorem serialize_char_indexOf_unsupported_witness :
    containsCharIndexOf
      (.cmpL (.indexOfCall (.propL "Name") true "b") "eq" (.constL "2")) = true
    ∧ (Serialize (.cmpL (.indexOfCall (.propL "Name") true "b") "eq" (.constL "2"))
        = .error ⟨true, "The string IndexOf(char) method is unsupported. Please use the IndexOf(string) method instead."⟩
      ∧ ∀ s, Serialize (.cmpL (.indexOfCall (.propL "Name") true "b") "eq" (.constL "2"))
          ≠ .ok s) :=
  ⟨rfl, serialize_char_indexOf_unsupported _ rfl⟩

/-! ### C8: member-access rendering -/

/-- C8: a member access whose object is the current quantifier parameter
emits the plain property name; nested member accesses are joined with slashes
(person/age); inside a quantifier sub-predicate (includeIdentifier set) the
quantifier's bound name becomes the first segment; and serializing the lambda
c with body c.Person.Name equal to the string Bob yields Person/Name eq 'Bob'. -/
theorem member_access_rendering (v : SerVariant) (tq : TypeQuery)
    (param prop : String) (pp : Bool)
    (hprop : prop ≠ "length") (hpd : prop.data ≠ []) (hparam : param.data ≠ []) :
    visitNode v tq (some param) false pp (.propAccess (.ident param) prop) = prop
    ∧ visitNode v tq (some param) true pp (.propAccess (.ident param) prop)
        = param ++ "/" ++ prop
    ∧ (∀ ns : List String, (∀ s ∈ ns, s.data ≠ []) →
        visitNode v tq (some param) false pp (chainNode (.ident param) (ns ++ [prop]))
          = renderPath (ns ++ [prop])
        ∧ visitNode v tq (some param) true pp (chainNode (.ident param) (ns ++ [prop]))
          = renderPath (param :: (ns ++ [prop])))
    ∧ convertExpressionToODataString v tq
        ⟨"c", .binaryExpr (.propAccess (.propAccess (.ident "c") "Person") "Name")
          .eqeqTok (.strLit "Bob")⟩
        = "Person/Name eq 'Bob'" := by
  refine ⟨?_, ?_, ?_, ?_⟩
  · simp [visitNode, emitPropAccess, hprop]
  · simp [visitNode, emitPropAccess, hprop]
  · intro ns hns
    have hall : ∀ s ∈ ns ++ [prop], s.data ≠ [] := by
      intro s hs
      rcases List.mem_append.mp hs with h | h
      · exact hns s h
      · rw [List.mem_singleton.mp h]; exact hpd
    exact ⟨visit_chain_noIdent v tq param pp ns prop hprop hall,
           visit_chain_ident v tq param pp ns prop hprop hparam hall⟩
  · cases v <;> rfl

/-- Witness for the member-access rendering at concrete inputs. -/
theorem member_access_rendering_witness :
    visitNode .esTs ⟨fun _ => "number", fun _ => false⟩ (some "c") false false
        (.propAccess (.ident "c") "Name") = "Name"
    ∧ visitNode .esTs ⟨fun _ => "number", fun _ => false⟩ (some "c") true false
        (.propAccess (.ident "c") "Name") = "c" ++ "/" ++ "Name"
    ∧ convertExpressionToODataString .esTs ⟨fun _ => "number", fun _ => false⟩
        ⟨"c", .binaryExpr (.propAccess (.propAccess (.ident "c") "Person") "Name")
          .eqeqTok (.strLit "Bob")⟩
        = "Person/Name eq 'Bob'" := by
  have h := member_access_rendering .esTs ⟨fun _ => "number", fun _ => false⟩
    "c" "Name" false (by decide) (by decide) (by decide)
  exact ⟨h.1, h.2.1, h.2.2.2⟩

/-! ### C9: external references and eager interpolation -/

theorem interpolateScan_literal (env : String → String) (cs : List Char)
    (hcs : '$' ∉ cs) : ∀ rest : List Char,
    interpolateScan env none (cs ++ rest) = cs ++ interpolateScan env none rest := by
  induction cs with
  | nil => intro rest; rfl
  | cons c cs' ih =>
    intro rest
    have hc : c ≠ '$' := fun h => hcs (h ▸ List.mem_cons_self c cs')
    have hcs' : '$' ∉ cs' := fun h => hcs (List.mem_cons_of_mem c h)
    cases hcr : cs' ++ rest with
    | nil =>
      rcases List.append_eq_nil.mp hcr with ⟨h1, h2⟩
      subst h1; subst h2
      simp [interpolateScan]
    | cons c2 rest2 =>
      have : interpolateScan env none (c :: c2 :: rest2)
          = c :: interpolateScan env none (c2 :: rest2) := by
        simp [interpolateScan, hc]
      calc interpolateScan env none ((c :: cs') ++ rest)
          = interpolateScan env none (c :: c2 :: rest2) := by rw [List.cons_append, hcr]
        _ = c :: interpolateScan env none (c2 :: rest2) := this
        _ = c :: interpolateScan env none (cs' ++ rest) := by rw [hcr]
        _ = c :: (cs' ++ interpolateScan env none rest) := by rw [ih hcs']
        _ = (c :: cs') ++ interpolateScan env none rest := rfl

theorem interpolateScan_placeholder (env : String → String) (cs : List Char)
    (hcs : Char.ofNat 125 ∉ cs) : ∀ (acc rest : List Char),
    interpolateScan env (some acc) (cs ++ Char.ofNat 125 :: rest)
      = (env (String.mk (acc ++ cs))).data ++ interpolateScan env none rest := by
  induction cs with
  | nil =>
    intro acc rest
    simp [interpolateScan]
  | cons c cs' ih =>
    intro acc rest
    have hc : c ≠ Char.ofNat 125 := fun h => hcs (h ▸ List.mem_cons_self c cs')
    have hcs' : Char.ofNat 125 ∉ cs' := fun h => hcs (List.mem_cons_of_mem c h)
    have step : interpolateScan env (some acc) ((c :: cs') ++ Char.ofNat 125 :: rest)
        = interpolateScan env (some (acc ++ [c])) (cs' ++ Char.ofNat 125 :: rest) := by
      simp [interpolateScan, hc]
    rw [step, ih hcs' (acc ++ [c]) rest]
    simp

/-- C9: an external variable reference serializes to an interpolation
placeholder carrying the reference's source text, quoted when its static type
is string and bare when numeric; an external function call serializes to a
placeholder carrying its call text; and rendering a serialized string under
the runtime environment substitutes each placeholder with the value the
environment holds at that moment (the eager snapshot), as the concrete
age-comparison example shows. -/
theorem external_reference_serialization (v : SerVariant) (tq : TypeQuery)
    (lam : Option String) (ii : Bool) (t fnText args : String)
    (env : String → String) (pre name : String)
    (ht : t ≠ "undefined") (hlam : lam ≠ some t)
    (hpre : '$' ∉ pre.data) (hname : Char.ofNat 125 ∉ name.data) :
    (tq.tyOf (.ident t) = "string" →
      visitNode v tq lam ii false (.ident t) = "'$\x7b" ++ t ++ "\x7d'")
    ∧ (tq.tyOf (.ident t) = "number" →
      visitNode v tq lam ii false (.ident t) = "$\x7b" ++ t ++ "\x7d")
    ∧ visitNode v tq lam ii false (.callDirect fnText args)
        = "$\x7b" ++ fnText ++ "(" ++ args ++ ")\x7d"
    ∧ interpolateRender (pre ++ "$\x7b" ++ name ++ "\x7d") env = pre ++ env name
    ∧ interpolateRender
        (convertExpressionToODataString v tq
          ⟨"x", .binaryExpr (.propAccess (.ident "x") "age") .leTok
            (.callDirect "someFunction" "num")⟩) env
      = "age le " ++ env "someFunction(num)" := by
  have hinterp : ∀ (pre2 name2 : String), '$' ∉ pre2.data →
      Char.ofNat 125 ∉ name2.data →
      interpolateRender (pre2 ++ "$\x7b" ++ name2 ++ "\x7d") env
        = pre2 ++ env name2 := by
    intro pre2 name2 hp hn
    have hdata : (pre2 ++ "$\x7b" ++ name2 ++ "\x7d").data
        = pre2.data ++ '$' :: Char.ofNat 123 :: (name2.data ++ Char.ofNat 125 :: []) := by
      simp [String.data_append]
    apply String.ext
    rw [interpolateRender, hdata]
    rw [interpolateScan_literal env pre2.data hp]
    have hopen : interpolateScan env none
        ('$' :: Char.ofNat 123 :: (name2.data ++ Char.ofNat 125 :: []))
        = (env (String.mk name2.data)).data ++ interpolateScan env none [] := by
      have := interpolateScan_placeholder env name2.data hn [] []
      simpa [interpolateScan] using this
    rw [hopen]
    simp [String.data_append, interpolateScan]
  refine ⟨fun hs => ?_, fun hn => ?_, ?_, hinterp pre name hpre hname, ?_⟩
  · simp [visitNode, emitIdent, ht, hlam, hs]
  · simp [visitNode, emitIdent, ht, hlam, hn]
  · rfl
  · have hser : convertExpressionToODataString v tq
        ⟨"x", .binaryExpr (.propAccess (.ident "x") "age") .leTok
          (.callDirect "someFunction" "num")⟩
        = "age le " ++ "$\x7b" ++ "someFunction(num)" ++ "\x7d" := by
      cases v <;> rfl
    rw [hser]
    exact hinterp "age le " "someFunction(num)" (by decide) (by decide)

/-- Witness for the external-reference serialization at concrete inputs. -/
theorem external_reference_serialization_witness :
    visitNode .esTs ⟨fun _ => "string", fun _ => false⟩ (some "x") false false
        (.ident "num") = "'$\x7bnum\x7d'"
    ∧ visitNode .esTs ⟨fun _ => "number", fun _ => false⟩ (some "x") false false
        (.ident "num") = "$\x7bnum\x7d"
    ∧ interpolateRender "age le $\x7bsomeFunction(num)\x7d"
        (fun s => if s = "someFunction(num)" then "456" else "")
      = "age le 456" := by
  refine ⟨?_, ?_, ?_⟩
  · have h := (external_reference_serialization .esTs
      ⟨fun _ => "string", fun _ => false⟩ (some "x") false "num" "" ""
      (fun _ => "") "" "" (by decide) (by decide) (by decide) (by decide)).1 rfl
    simpa using h
  · have h := (external_reference_serialization .esTs
      ⟨fun _ => "number", fun _ => false⟩ (some "x") false "num" "" ""
      (fun _ => "") "" "" (by decide) (by decide) (by decide) (by decide)).2.1 rfl
    simpa using h
  · have h := (external_reference_serialization .esTs
      ⟨fun _ => "number", fun _ => false⟩ (some "x") false "num" "" ""
      (fun s => if s = "someFunction(num)" then "456" else "")
      "age le " "someFunction(num)"
      (by decide) (by decide) (by decide) (by decide)).2.2.2.1
    simpa using h

/-! ### C1: round trip of the grammar core -/

theorem wfName_spec (s : String) (h : wfName s = true) :
    nameOk s.data = true ∧ s ≠ "length" := by
  simp [wfName, Bool.and_eq_true] at h
  exact ⟨h.1, by simpa using h.2⟩

theorem nameOk_spec (cs : List Char) (h : nameOk cs = true) :
    cs ≠ [] ∧ (∀ c ∈ cs, c.isAlpha = true) := by
  simp [nameOk, Bool.and_eq_true, List.all_eq_true] at h
  refine ⟨?_, h.1.2⟩
  intro he
  subst he
  simp at h

theorem alpha_no_space {c : Char} (h : c.isAlpha = true) : c ≠ ' ' := by
  intro he; subst he; exact absurd h (by decide)

theorem digit_no_space {c : Char} (h : c.isDigit = true) : c ≠ ' ' := by
  intro he; subst he; exact absurd h (by decide)

theorem digit_no_quote {c : Char} (h : c.isDigit = true) : c ≠ quoteChar := by
  intro he; subst he; exact absurd h (by decide)

theorem wfPath_spec (path : List String) (h : wfPath path = true) :
    path ≠ [] ∧ ∀ s ∈ path, wfName s = true := by
  simp [wfPath, Bool.and_eq_true, List.all_eq_true] at h
  refine ⟨?_, h.2⟩
  intro he
  subst he
  simp at h

theorem wfName_data_ne_nil (s : String) (h : wfName s = true) : s.data ≠ [] :=
  (nameOk_spec s.data (wfName_spec s h).1).1

theorem getNested_chain_bv (bv : String) (ipath : List String)
    (hbv : wfName bv = true) (hp : wfPath ipath = true) :
    getNestedPropertyName (chainNode (.ident bv) ipath) (some bv) true
      = renderPath (bv :: ipath) := by
  obtain ⟨hne, hall⟩ := wfPath_spec ipath hp
  rw [getNestedPropertyName_chainNode]
  have hgi : getNestedPropertyName (.ident bv) (some bv) true = bv := rfl
  rw [hgi]
  have hbvne : ¬ bv.isEmpty := by
    intro h
    exact wfName_data_ne_nil bv hbv
      (by simpa using congrArg String.data ((String.isEmpty_iff _).mp h))
  exact foldl_joinSegment_nonempty ipath bv hbvne

